import Mathlib

/-!
Shallow embedding of the s5-commander orchestration core (src/main.go).

The program runs an external copy tool each tick, captures its combined
output into a sink file, parses the sink as newline-terminated JSON
records, deletes each local file whose remote copy was reported
successful, and accumulates per-run summaries into a windowed reporter.

Effectful primitives are abstracted as explicit parameters:
  * JSON decoding of a record line (encoding/json Unmarshal into
    JobResult) is a parameter `decode : List Char → Option JobResult`;
  * decoding the whole sink as the error envelope (Unmarshal into a
    struct with one string field named error) is a parameter
    `decodeEnv : List Char → Option String` returning that field;
  * the file system is a predicate `String → Bool` (true = the file
    exists and is removable); os.Remove succeeds exactly on such a file
    and removes it from the predicate.
-/

/-- Embeds `Summary` (src/main.go lines 50-55): per-run counters and the
ordered list of source paths whose local deletion failed. Go `int` /
`int64` are modelled as `Nat` (counters only ever increment) and `Int`. -/
structure Summary where
  filesTransferred : Nat
  filesDeleted : Nat
  totalBytes : Int
  filesFailed : List String
deriving DecidableEq, Repr

/-- The zero value `Summary{}` used for fresh runs and resets. -/
def Summary.zero : Summary := ⟨0, 0, 0, []⟩

/-- Embeds the nested anonymous `Object` struct of `JobResult`
(src/main.go lines 43-46). -/
structure JobObject where
  objectType : String
  size : Int
deriving DecidableEq, Repr

/-- Embeds `JobResult` (src/main.go lines 38-47): one decoded line of the
copy tool's JSON output. -/
structure JobResult where
  operation : String
  success : Bool
  source : String
  destination : String
  object : JobObject
deriving DecidableEq, Repr

/-- Embeds the reader loop of `parseAndCleanup` (src/main.go lines
411-418): `bufio.Reader.ReadBytes` with delimiter newline returns each
chunk up to and including the newline; at end of file it returns the
pending unterminated fragment together with io.EOF, and the loop breaks
on io.EOF before looking at that data, so the fragment is discarded.
`acc` is the pending partial line, in order. -/
def readLinesAux (acc : List Char) : List Char → List (List Char)
  | [] => []
  | c :: rest =>
    if c = '\n' then (acc ++ ['\n']) :: readLinesAux [] rest
    else readLinesAux (acc ++ [c]) rest

/-- The sequence of complete newline-terminated lines of the sink, each
including its terminating newline, as handed to json.Unmarshal. -/
def readLines (content : List Char) : List (List Char) :=
  readLinesAux [] content

/-- Embeds the per-line decode of `parseAndCleanup` (src/main.go lines
420-424): lines that fail to unmarshal are silently skipped. -/
def decodedRecords (decode : List Char → Option JobResult)
    (content : List Char) : List JobResult :=
  (readLines content).filterMap decode

/-- The actionable-record test of `parseAndCleanup` (src/main.go line
426): operation is the copy tag "cp", success is true, object type is
"file". -/
def recordActionable (r : JobResult) : Bool :=
  r.operation == "cp" && r.success && r.object.objectType == "file"

/-- State threaded through the reconciliation loop: the summary being
built, the file-system predicate, and the instrumented trace of paths on
which os.Remove has been invoked, in order. -/
structure CleanupState where
  summary : Summary
  fs : String → Bool
  calls : List String

/-- Embeds one iteration of the loop body of `parseAndCleanup`
(src/main.go lines 426-436) on an already-decoded record: a
non-actionable record leaves the state untouched; an actionable one
increments filesTransferred, adds the object size, invokes os.Remove on
the source path, and records the outcome. -/
def cleanupStep (st : CleanupState) (r : JobResult) : CleanupState :=
  if recordActionable r then
    let s1 : Summary :=
      { st.summary with
        filesTransferred := st.summary.filesTransferred + 1
        totalBytes := st.summary.totalBytes + r.object.size }
    if st.fs r.source then
      { summary := { s1 with filesDeleted := s1.filesDeleted + 1 }
        fs := fun q => if q = r.source then false else st.fs q
        calls := st.calls ++ [r.source] }
    else
      { summary := { s1 with filesFailed := s1.filesFailed ++ [r.source] }
        fs := st.fs
        calls := st.calls ++ [r.source] }
  else st

/-- Reconciliation over a record sequence from a given file system,
starting from the zero summary as `parseAndCleanup` does. -/
def runCleanup (fs : String → Bool) (records : List JobResult) : CleanupState :=
  records.foldl cleanupStep ⟨Summary.zero, fs, []⟩

/-- Embeds `parseAndCleanup` (src/main.go lines 401-440) end to end:
read the sink's complete lines, decode each, reconcile. -/
def parseAndCleanup (decode : List Char → Option JobResult)
    (fs : String → Bool) (content : List Char) : CleanupState :=
  runCleanup fs (decodedRecords decode content)

/-- Embeds `strings.Contains hay needle`: recursion on the haystack,
true when the needle is a prefix of some suffix (and always true for the
empty needle). -/
def containsSeq (needle : List Char) : List Char → Bool
  | [] => needle.isEmpty
  | c :: t => needle.isPrefixOf (c :: t) || containsSeq needle t

/-- The literal substring tested by `checkForNoMatchError`
(src/main.go line 398). -/
def noMatchPat : List Char := "no match found for".toList

/-- Embeds `checkForNoMatchError` (src/main.go lines 371-399): a missing
sink is false; an empty sink is false; a sink that does not unmarshal as
the error envelope is false; otherwise test whether the envelope's error
string contains "no match found for". -/
def checkForNoMatchError (decodeEnv : List Char → Option String)
    (sink : Option (List Char)) : Bool :=
  match sink with
  | none => false
  | some data =>
    if data.isEmpty then false
    else
      match decodeEnv data with
      | none => false
      | some msg => containsSeq noMatchPat msg.toList

/-- Embeds `processFiles` (src/main.go lines 248-273). `runFailed` is
whether the subprocess invocation returned an error. The result pairs
the summary with an error flag (true = non-nil error returned; the
summary is then the zero value, as every error path returns Summary{}).
A missing sink on the success path makes `parseAndCleanup` fail to open
the file, an error. -/
def processFiles (runFailed : Bool) (sink : Option (List Char))
    (decodeEnv : List Char → Option String)
    (decode : List Char → Option JobResult)
    (fs : String → Bool) : Summary × Bool :=
  if runFailed then
    if checkForNoMatchError decodeEnv sink then (Summary.zero, false)
    else (Summary.zero, true)
  else
    match sink with
    | none => (Summary.zero, true)
    | some content => ((parseAndCleanup decode fs content).summary, false)

/-- Embeds the fold of a per-run summary into the accumulator
(src/main.go lines 221-224): pointwise sums and list concatenation. -/
def accumulate (into src : Summary) : Summary :=
  { filesTransferred := into.filesTransferred + src.filesTransferred
    filesDeleted := into.filesDeleted + src.filesDeleted
    totalBytes := into.totalBytes + src.totalBytes
    filesFailed := into.filesFailed ++ src.filesFailed }

/-- The order-insensitive observables of a summary: the three counters
and the number of failed deletions. -/
def totals (s : Summary) : Nat × Nat × Int × Nat :=
  (s.filesTransferred, s.filesDeleted, s.totalBytes, s.filesFailed.length)

/-- Embeds the computation of `runsPerLog` (src/main.go lines 156-160):
integer division of the reporting window by the tick interval (both in
nanoseconds), clamped below by 1. -/
def runsPerLog (window interval : Nat) : Nat :=
  let n := window / interval
  if n < 1 then 1 else n

/-- The scheduler loop's accumulated state: the windowed summary and the
tick counter (src/main.go lines 162-163). -/
structure LoopState where
  acc : Summary
  runCounter : Nat
deriving Repr

/-- Embeds one tick of the scheduler loop after a run produced
`runSummary` (src/main.go lines 221-243): fold the summary in, bump the
counter; at the reporting point (counter reached `n`) the report line is
emitted only when the accumulated filesTransferred is positive, and the
counter and accumulator are reset. Returns the new state, whether the
reporting point was reached, and whether the report was emitted. -/
def tickStep (n : Nat) (st : LoopState) (runSummary : Summary) :
    LoopState × Bool × Bool :=
  let acc1 := accumulate st.acc runSummary
  let rc1 := st.runCounter + 1
  if n ≤ rc1 then
    (⟨Summary.zero, 0⟩, true, decide (0 < acc1.filesTransferred))
  else
    (⟨acc1, rc1⟩, false, false)

/-- The scheduler state after a sequence of ticks. -/
def tickFold (n : Nat) (st : LoopState) (runs : List Summary) : LoopState :=
  runs.foldl (fun s r => (tickStep n s r).1) st

/-- Embeds the shutdown branch of `main` (src/main.go lines 171-197):
the final metrics snapshot is sent only when metrics are enabled and
there is accumulated data; the final summary line is logged only when
there is accumulated data; the loop then returns and the process exits
with status 0. Returns (metricsSent, summaryLogged, exitCode). -/
def shutdownStep (netdataEnabled : Bool) (acc : Summary) (rc : Nat) :
    Bool × Bool × Nat :=
  let hasData := decide (0 < acc.filesTransferred) || decide (0 < rc)
  (netdataEnabled && hasData, hasData, 0)

/-!
Model of the source-path computation of `runS5cmd` (src/main.go lines
275-279): strip one leading separator from the glob suffix, then
`filepath.Join` it onto the folder root. `filepath.Join` on Unix joins
the non-empty elements with "/" and runs `Clean`, whose documented
rewriting rules are: collapse repeated separators, eliminate "."
elements, eliminate each ".." together with the preceding non-".."
element, and eliminate ".." elements at the root; empty cleans to ".".
We model paths as `List Char` and components as slash-separated chunks.
-/

/-- Split a character list at every separator; components may be empty
(adjacent separators) and carry no separator themselves. `cur` is the
reversed pending component. -/
def splitSepAux (cur : List Char) : List Char → List (List Char)
  | [] => [cur.reverse]
  | c :: rest =>
    if c = '/' then cur.reverse :: splitSepAux [] rest
    else splitSepAux (c :: cur) rest

/-- All slash-separated components of a path. -/
def splitSep (cs : List Char) : List (List Char) :=
  splitSepAux [] cs

/-- The ".." case of Clean's element processing: pop a preceding
non-".." component, drop ".." at the root, keep it otherwise. -/
def cleanPop (rooted : Bool) : List (List Char) → List (List Char)
  | [] => if rooted then [] else [['.', '.']]
  | top :: rest =>
    if top = ['.', '.'] then ['.', '.'] :: top :: rest else rest

/-- One step of Clean's element processing over a stack of kept
components (stack is reversed: head = most recent). Empty and "."
components are dropped; ".." pops a preceding non-".." component, is
dropped at the root, and is kept otherwise. -/
def cleanPush (rooted : Bool) (stack : List (List Char)) (comp : List Char) :
    List (List Char) :=
  if comp = [] ∨ comp = ['.'] then stack
  else if comp = ['.', '.'] then cleanPop rooted stack
  else comp :: stack

/-- Interleave a single separator between components. -/
def joinSep : List (List Char) → List Char
  | [] => []
  | [l] => l
  | l :: rest => l ++ '/' :: joinSep rest

/-- Model of Go `path/filepath.Clean` on Unix over character lists, per
its documented rewriting rules. -/
def goCleanList (cs : List Char) : List Char :=
  match cs with
  | [] => ['.']
  | c :: _ =>
    let comps := ((splitSep cs).foldl (cleanPush (c == '/')) []).reverse
    if c == '/' then '/' :: joinSep comps
    else match comps with
      | [] => ['.']
      | _ => joinSep comps

/-- Model of Go `path/filepath.Join` on Unix for two elements: join the
elements from the first non-empty one with "/" and Clean the result; all
elements empty yields the empty string. -/
def goJoin (a b : String) : String :=
  if a = "" then
    if b = "" then "" else String.mk (goCleanList b.toList)
  else String.mk (goCleanList (a.toList ++ '/' :: b.toList))

/-- Embeds the suffix normalization of `runS5cmd` (src/main.go lines
276-278): strip exactly one leading separator if present. -/
def stripLeadingSep (s : String) : String :=
  match s.toList with
  | '/' :: rest => String.mk rest
  | _ => s

/-- Embeds the source path handed to the copy tool (src/main.go line
279). -/
def srcPath (folderRoot globSuffix : String) : String :=
  goJoin folderRoot (stripLeadingSep globSuffix)

/-- No two adjacent characters of the string are both separators. -/
def noDoubleSep (s : String) : Prop :=
  List.Chain' (fun a b => ¬(a = '/' ∧ b = '/')) s.toList

/-! ## Helper lemmas about the reconciliation loop -/

theorem cleanupStep_inv (st : CleanupState) (r : JobResult)
    (h : st.summary.filesDeleted + st.summary.filesFailed.length
      = st.summary.filesTransferred) :
    (cleanupStep st r).summary.filesDeleted
      + (cleanupStep st r).summary.filesFailed.length
      = (cleanupStep st r).summary.filesTransferred := by
  unfold cleanupStep
  cases ha : recordActionable r with
  | false => simpa using h
  | true =>
    cases hf : st.fs r.source with
    | false => simp; omega
    | true => simp; omega

theorem cleanup_foldl_inv (records : List JobResult) :
    ∀ st : CleanupState,
      st.summary.filesDeleted + st.summary.filesFailed.length
        = st.summary.filesTransferred →
      (records.foldl cleanupStep st).summary.filesDeleted
        + (records.foldl cleanupStep st).summary.filesFailed.length
        = (records.foldl cleanupStep st).summary.filesTransferred := by
  induction records with
  | nil => intro st h; simpa using h
  | cons r rs ih =>
    intro st h
    simpa using ih (cleanupStep st r) (cleanupStep_inv st r h)

theorem cleanupStep_calls (st : CleanupState) (r : JobResult) :
    (cleanupStep st r).calls
      = st.calls ++ (if recordActionable r then [r.source] else []) := by
  unfold cleanupStep
  cases ha : recordActionable r with
  | false => simp
  | true =>
    cases hf : st.fs r.source with
    | false => simp
    | true => simp

theorem cleanup_foldl_calls (records : List JobResult) :
    ∀ st : CleanupState,
      (records.foldl cleanupStep st).calls
        = st.calls ++ (records.filter (fun r => recordActionable r)).map
            (fun r => r.source) := by
  induction records with
  | nil => intro st; simp
  | cons r rs ih =>
    intro st
    rw [List.foldl_cons, ih (cleanupStep st r), cleanupStep_calls]
    cases ha : recordActionable r with
    | false => simp [List.filter_cons, ha]
    | true => simp [List.filter_cons, ha]

theorem cleanup_foldl_fs_removed (records : List JobResult) :
    ∀ (st : CleanupState) (p : String),
      st.fs p = true → (records.foldl cleanupStep st).fs p = false →
      ∃ r, r ∈ records ∧ recordActionable r = true ∧ r.source = p := by
  induction records with
  | nil =>
    intro st p h1 h2
    rw [List.foldl_nil] at h2
    simp [h1] at h2
  | cons r rs ih =>
    intro st p h1 h2
    rw [List.foldl_cons] at h2
    by_cases hmid : (cleanupStep st r).fs p = true
    · obtain ⟨r', hm, ha, hs⟩ := ih (cleanupStep st r) p hmid h2
      exact ⟨r', List.mem_cons_of_mem _ hm, ha, hs⟩
    · have hmid' : (cleanupStep st r).fs p = false := by
        cases hv : (cleanupStep st r).fs p with
        | false => rfl
        | true => exact absurd hv hmid
      clear h2 hmid
      unfold cleanupStep at hmid'
      cases ha : recordActionable r with
      | false => simp [ha, h1] at hmid'
      | true =>
        cases hf : st.fs r.source with
        | false => simp [ha, hf, h1] at hmid'
        | true =>
          simp only [ha, hf, if_true] at hmid'
          by_cases hp : p = r.source
          · exact ⟨r, List.mem_cons_self r rs, ha, hp.symm⟩
          · simp [hp, h1] at hmid'

/-! ## Helper lemmas about the reader loop -/

theorem readLinesAux_no_newline (frag : List Char) (hn : '\n' ∉ frag) :
    ∀ acc : List Char, readLinesAux acc frag = [] := by
  induction frag with
  | nil => intro acc; rfl
  | cons c t ih =>
    intro acc
    have hc : ¬ c = '\n' := by
      intro h; exact hn (h ▸ List.mem_cons_self c t)
    have ht : '\n' ∉ t := fun h => hn (List.mem_cons_of_mem c h)
    rw [readLinesAux, if_neg hc]
    exact ih ht (acc ++ [c])

theorem readLinesAux_append_no_newline (frag : List Char)
    (hn : '\n' ∉ frag) (pre : List Char) :
    ∀ acc : List Char, readLinesAux acc (pre ++ frag) = readLinesAux acc pre := by
  induction pre with
  | nil =>
    intro acc
    rw [List.nil_append, readLinesAux_no_newline frag hn acc]
    rfl
  | cons c t ih =>
    intro acc
    rw [List.cons_append, readLinesAux, readLinesAux]
    by_cases hc : c = '\n'
    · rw [if_pos hc, if_pos hc, ih []]
    · rw [if_neg hc, if_neg hc, ih (acc ++ [c])]

/-! ## Claims about parsing and reconciliation -/

/-- C1: in a reconciliation pass over a parsed record sequence, the
delete operation is invoked on a path exactly when the sequence contains
a record with that exact source path, the actionable operation kind
("cp"), success true, and object type "file"; moreover any file the pass
actually removes from the file system is covered by such a record, so no
file is deleted without a confirmation record. -/
theorem claim_C1_delete_iff_confirmed (decode : List Char → Option JobResult)
    (fs : String → Bool) (content : List Char) (p : String) :
    (p ∈ (parseAndCleanup decode fs content).calls ↔
      ∃ r, r ∈ decodedRecords decode content ∧ recordActionable r = true ∧
        r.source = p) ∧
    (fs p = true → (parseAndCleanup decode fs content).fs p = false →
      ∃ r, r ∈ decodedRecords decode content ∧ recordActionable r = true ∧
        r.source = p) := by
  constructor
  · rw [parseAndCleanup, runCleanup, cleanup_foldl_calls]
    simp only [List.nil_append, List.mem_map, List.mem_filter]
    constructor
    · rintro ⟨r, ⟨hm, ha⟩, hs⟩
      exact ⟨r, hm, ha, hs⟩
    · rintro ⟨r, hm, ha, hs⟩
      exact ⟨r, ⟨hm, ha⟩, hs⟩
  · intro h1 h2
    exact cleanup_foldl_fs_removed (decodedRecords decode content)
      ⟨Summary.zero, fs, []⟩ p h1 h2

/-- Witness for C1 at a concrete sink of one actionable record. -/
theorem claim_C1_delete_iff_confirmed_witness :
    ((fun _ : String => true) "/tmp/a.gz" = true) ∧
    ((parseAndCleanup
        (fun l => if l = "x\n".toList then
          some ⟨"cp", true, "/tmp/a.gz", "s3://b/a.gz", ⟨"file", 1024⟩⟩
          else none)
        (fun _ => true) "x\n".toList).fs "/tmp/a.gz" = false) ∧
    (∃ r, r ∈ decodedRecords
        (fun l => if l = "x\n".toList then
          some ⟨"cp", true, "/tmp/a.gz", "s3://b/a.gz", ⟨"file", 1024⟩⟩
          else none) "x\n".toList ∧
      recordActionable r = true ∧ r.source = "/tmp/a.gz") :=
  ⟨rfl, by decide,
    (claim_C1_delete_iff_confirmed
        (fun l => if l = "x\n".toList then
          some ⟨"cp", true, "/tmp/a.gz", "s3://b/a.gz", ⟨"file", 1024⟩⟩
          else none)
        (fun _ => true) "x\n".toList "/tmp/a.gz").2 rfl (by decide)⟩

/-- C2: at the end of every reconciliation pass, filesDeleted plus the
number of failed deletions equals filesTransferred, and each actionable
record contributes to exactly one of the two. -/
theorem claim_C2_summary_invariant (decode : List Char → Option JobResult)
    (fs : String → Bool) (content : List Char) :
    (parseAndCleanup decode fs content).summary.filesDeleted
      + (parseAndCleanup decode fs content).summary.filesFailed.length
      = (parseAndCleanup decode fs content).summary.filesTransferred := by
  rw [parseAndCleanup, runCleanup]
  exact cleanup_foldl_inv (decodedRecords decode content)
    ⟨Summary.zero, fs, []⟩ (by simp [Summary.zero])

/-- C4: a record with operation different from the copy tag "cp", or
success false, or object type different from "file", leaves the whole
reconciliation state — in particular every field of the summary —
unchanged. -/
theorem claim_C4_frame (st : CleanupState) (r : JobResult)
    (h : r.operation ≠ "cp" ∨ r.success = false ∨
      r.object.objectType ≠ "file") :
    cleanupStep st r = st := by
  have ha : recordActionable r = false := by
    unfold recordActionable
    rcases h with h | h | h
    · simp [h]
    · simp [h]
    · simp [h]
  unfold cleanupStep
  rw [ha]
  simp

/-- Witness for C4 on a concrete non-actionable record. -/
theorem claim_C4_frame_witness :
    ((⟨"delete", true, "/tmp/a.gz", "d", ⟨"file", 7⟩⟩ : JobResult).operation
        ≠ "cp" ∨
      (⟨"delete", true, "/tmp/a.gz", "d", ⟨"file", 7⟩⟩ : JobResult).success
        = false ∨
      (⟨"delete", true, "/tmp/a.gz", "d",
        ⟨"file", 7⟩⟩ : JobResult).object.objectType ≠ "file") ∧
    cleanupStep ⟨⟨2, 1, 9, ["x"]⟩, fun _ => true, ["x"]⟩
        ⟨"delete", true, "/tmp/a.gz", "d", ⟨"file", 7⟩⟩
      = ⟨⟨2, 1, 9, ["x"]⟩, fun _ => true, ["x"]⟩ :=
  ⟨Or.inl (by decide),
    claim_C4_frame ⟨⟨2, 1, 9, ["x"]⟩, fun _ => true, ["x"]⟩
      ⟨"delete", true, "/tmp/a.gz", "d", ⟨"file", 7⟩⟩ (Or.inl (by decide))⟩

/-- C3: when the invocation failed and the whole sink decodes as an
error envelope whose error string contains "no match found for", the run
yields the all-zero summary and no error. -/
theorem claim_C3_no_match_is_empty_run
    (decodeEnv : List Char → Option String)
    (decode : List Char → Option JobResult) (fs : String → Bool)
    (data : List Char) (msg : String)
    (hne : data ≠ [])
    (hdec : decodeEnv data = some msg)
    (hsub : containsSeq noMatchPat msg.toList = true) :
    processFiles true (some data) decodeEnv decode fs
      = (Summary.zero, false) := by
  have hemp : data.isEmpty = false := by
    cases data with
    | nil => exact absurd rfl hne
    | cons c t => rfl
  unfold processFiles checkForNoMatchError
  simp [hemp, hdec]
  exact hsub

/-- Witness for C3 on the documented no-match envelope. -/
theorem claim_C3_no_match_is_empty_run_witness :
    ("{}".toList ≠ ([] : List Char)) ∧
    processFiles true (some "{}".toList)
        (fun l => if l = "{}".toList then
          some "no match found for pattern X" else none)
        (fun _ => none) (fun _ => true)
      = (Summary.zero, false) :=
  ⟨by decide,
    claim_C3_no_match_is_empty_run
      (fun l => if l = "{}".toList then
        some "no match found for pattern X" else none)
      (fun _ => none) (fun _ => true) "{}".toList
      "no match found for pattern X" (by decide) (by decide) (by decide)⟩

/-- C9: when the invocation failed and the sink is missing, empty, or
does not decode as the error envelope, the run is a hard failure: the
all-zero summary together with an error, never the empty-match
outcome. -/
theorem claim_C9_hard_failure (decodeEnv : List Char → Option String)
    (decode : List Char → Option JobResult) (fs : String → Bool)
    (sink : Option (List Char))
    (h : sink = none ∨ sink = some [] ∨
      ∃ data, sink = some data ∧ decodeEnv data = none) :
    processFiles true sink decodeEnv decode fs = (Summary.zero, true) := by
  rcases h with h | h | ⟨data, hs, hd⟩
  · subst h; rfl
  · subst h; rfl
  · subst hs
    unfold processFiles checkForNoMatchError
    cases hemp : data.isEmpty with
    | true => simp [hemp]
    | false => simp [hemp, hd]

/-- Witness for C9 with a missing sink. -/
theorem claim_C9_hard_failure_witness :
    processFiles true none (fun _ => some "boom") (fun _ => none)
        (fun _ => true)
      = (Summary.zero, true) :=
  claim_C9_hard_failure (fun _ => some "boom") (fun _ => none)
    (fun _ => true) none (Or.inl rfl)

/-- C10: a final sink line not terminated by a newline is never decoded:
appending any newline-free fragment to a sink changes neither the
resulting summary nor the sequence of delete invocations, so even a
valid successful-copy record on an unterminated last line contributes
nothing and its source file is not deleted. -/
theorem claim_C10_unterminated_fragment
    (decode : List Char → Option JobResult) (fs : String → Bool)
    (pre frag : List Char) (h : '\n' ∉ frag) :
    (parseAndCleanup decode fs (pre ++ frag)).summary
        = (parseAndCleanup decode fs pre).summary ∧
    (parseAndCleanup decode fs (pre ++ frag)).calls
        = (parseAndCleanup decode fs pre).calls := by
  have hl : readLines (pre ++ frag) = readLines pre :=
    readLinesAux_append_no_newline frag h pre []
  unfold parseAndCleanup decodedRecords
  rw [hl]
  exact ⟨rfl, rfl⟩

/-- Witness for C10: a lone actionable record without a terminating
newline yields the empty-sink result — the zero summary and no delete
invocation. -/
theorem claim_C10_unterminated_fragment_witness :
    ('\n' ∉ "x".toList) ∧
    ((parseAndCleanup
        (fun l => if l = "x".toList then
          some ⟨"cp", true, "/tmp/a.gz", "d", ⟨"file", 3⟩⟩ else none)
        (fun _ => true) ([] ++ "x".toList)).summary
      = (parseAndCleanup
        (fun l => if l = "x".toList then
          some ⟨"cp", true, "/tmp/a.gz", "d", ⟨"file", 3⟩⟩ else none)
        (fun _ => true) []).summary) ∧
    ((parseAndCleanup
        (fun l => if l = "x".toList then
          some ⟨"cp", true, "/tmp/a.gz", "d", ⟨"file", 3⟩⟩ else none)
        (fun _ => true) []).summary = Summary.zero) :=
  ⟨by decide,
    (claim_C10_unterminated_fragment
      (fun l => if l = "x".toList then
        some ⟨"cp", true, "/tmp/a.gz", "d", ⟨"file", 3⟩⟩ else none)
      (fun _ => true) [] "x".toList (by decide)).1,
    by decide⟩

/-! ## Helper lemmas about the scheduler loop -/

theorem runsPerLog_pos (window interval : Nat) :
    0 < runsPerLog window interval := by
  unfold runsPerLog
  by_cases h : window / interval < 1
  · simp [h]
  · simpa [h] using Nat.lt_of_lt_of_le Nat.zero_lt_one (Nat.not_lt.mp h)

theorem tickFold_cons (n : Nat) (st : LoopState) (r : Summary)
    (rs : List Summary) :
    tickFold n st (r :: rs) = tickFold n (tickStep n st r).1 rs := rfl

theorem tickStep_state_of_boundary (n : Nat) (st : LoopState) (s : Summary)
    (h : n ≤ st.runCounter + 1) :
    (tickStep n st s).1 = ⟨Summary.zero, 0⟩ := by
  simp [tickStep, h]

theorem tickStep_state_of_inside (n : Nat) (st : LoopState) (s : Summary)
    (h : st.runCounter + 1 < n) :
    (tickStep n st s).1 = ⟨accumulate st.acc s, st.runCounter + 1⟩ := by
  simp [tickStep, Nat.not_le.mpr h]

theorem tickFold_counter (n : Nat) (hn : 0 < n) (runs : List Summary) :
    ∀ st : LoopState, st.runCounter < n →
      (tickFold n st runs).runCounter = (st.runCounter + runs.length) % n := by
  induction runs with
  | nil =>
    intro st h
    simp [tickFold, Nat.mod_eq_of_lt h]
  | cons r rs ih =>
    intro st h
    rw [tickFold_cons]
    by_cases hb : n ≤ st.runCounter + 1
    · have heq : st.runCounter + 1 = n := Nat.le_antisymm h hb
      rw [tickStep_state_of_boundary n st r hb]
      have := ih ⟨Summary.zero, 0⟩ hn
      simp only at this
      rw [this]
      have : st.runCounter + (r :: rs).length = n + rs.length := by
        simp [List.length_cons]; omega
      rw [this, Nat.add_mod_left, Nat.zero_add]
    · have hlt : st.runCounter + 1 < n := Nat.not_le.mp hb
      rw [tickStep_state_of_inside n st r hlt]
      have := ih ⟨accumulate st.acc r, st.runCounter + 1⟩ hlt
      simp only at this
      rw [this]
      congr 1
      simp [List.length_cons]
      omega

/-! ## Claims about the scheduler -/

/-- C5 counterexample: the claim asserts the terminal report is
performed for every accumulated state, including an all-zero accumulator
with zero completed runs; at exactly that state the shutdown branch logs
no final summary and sends no final metrics (even with metrics enabled),
because both are guarded by accumulated data being present. -/
theorem claim_C5_counterexample :
    (shutdownStep true Summary.zero 0).2.1 = false ∧
    (shutdownStep true Summary.zero 0).1 = false := by
  exact ⟨rfl, rfl⟩

/-- C5 amended: upon entering the shutdown state the process always
terminates with a success status, and the terminal report (final summary
line, plus a final metrics snapshot when metrics are enabled) is
performed exactly when the accumulated filesTransferred is positive or
at least one run has completed since the last reset. -/
theorem claim_C5_amended (netdataEnabled : Bool) (acc : Summary) (rc : Nat) :
    ((shutdownStep netdataEnabled acc rc).2.1 = true ↔
      (0 < acc.filesTransferred ∨ 0 < rc)) ∧
    ((shutdownStep netdataEnabled acc rc).1 = true ↔
      (netdataEnabled = true ∧ (0 < acc.filesTransferred ∨ 0 < rc))) ∧
    (shutdownStep netdataEnabled acc rc).2.2 = 0 := by
  unfold shutdownStep
  refine ⟨?_, ?_, rfl⟩
  · simp
  · simp [and_assoc]

/-- C6 counterexample: with window equal to interval the claimed period
is max(1, 1) = 1, so the claim requires a periodic report on every tick;
on a tick whose window accumulated zero transferred files the reporting
point is reached and the state is reset, but no report is emitted. -/
theorem claim_C6_counterexample :
    runsPerLog 60 60 = 1 ∧
    (tickStep (runsPerLog 60 60) ⟨Summary.zero, 0⟩ Summary.zero).2.1
      = true ∧
    (tickStep (runsPerLog 60 60) ⟨Summary.zero, 0⟩ Summary.zero).2.2
      = false := by
  refine ⟨rfl, rfl, rfl⟩

/-- C6 amended: the reporting point is reached exactly every
max(1, floor(window / interval)) ticks — the tick counter after any run
sequence equals its length modulo that period, at the reporting point the
accumulator and counter are reset to zero, and away from it neither reset
nor report happens; the report itself is emitted at the reporting point
only when the window's accumulated filesTransferred is positive. -/
theorem claim_C6_amended (window interval : Nat) :
    runsPerLog window interval = max 1 (window / interval) ∧
    (∀ runs : List Summary,
      (tickFold (runsPerLog window interval) ⟨Summary.zero, 0⟩
          runs).runCounter
        = runs.length % runsPerLog window interval) ∧
    (∀ (st : LoopState) (s : Summary),
      st.runCounter + 1 = runsPerLog window interval →
        (tickStep (runsPerLog window interval) st s).1
            = ⟨Summary.zero, 0⟩ ∧
        (tickStep (runsPerLog window interval) st s).2.1 = true ∧
        ((tickStep (runsPerLog window interval) st s).2.2 = true ↔
          0 < (accumulate st.acc s).filesTransferred)) ∧
    (∀ (st : LoopState) (s : Summary),
      st.runCounter + 1 < runsPerLog window interval →
        (tickStep (runsPerLog window interval) st s).1
            = ⟨accumulate st.acc s, st.runCounter + 1⟩ ∧
        (tickStep (runsPerLog window interval) st s).2.1 = false ∧
        (tickStep (runsPerLog window interval) st s).2.2 = false) := by
  refine ⟨?_, ?_, ?_, ?_⟩
  · unfold runsPerLog
    by_cases h : window / interval < 1
    · have h0 : window / interval = 0 := Nat.lt_one_iff.mp h
      simp [h, h0]
    · have h1 : 1 ≤ window / interval := Nat.not_lt.mp h
      simp [h, Nat.max_eq_right h1]
  · intro runs
    have := tickFold_counter (runsPerLog window interval)
      (runsPerLog_pos window interval) runs ⟨Summary.zero, 0⟩
      (runsPerLog_pos window interval)
    simpa using this
  · intro st s h
    have hb : runsPerLog window interval ≤ st.runCounter + 1 := h.ge
    refine ⟨tickStep_state_of_boundary _ st s hb, ?_, ?_⟩
    · simp [tickStep, hb]
    · simp [tickStep, hb]
  · intro st s h
    refine ⟨tickStep_state_of_inside _ st s h, ?_, ?_⟩
    · simp [tickStep, Nat.not_le.mpr h]
    · simp [tickStep, Nat.not_le.mpr h]

/-- Witness for C6 amended at window 60, interval 1 (period 60): a
boundary tick at counter 59 resets the state, and its report is emitted
exactly when the merged window transferred something. -/
theorem claim_C6_amended_witness :
    ((⟨Summary.zero, 59⟩ : LoopState).runCounter + 1 = runsPerLog 60 1) ∧
    (tickStep (runsPerLog 60 1) ⟨Summary.zero, 59⟩ ⟨1, 1, 5, []⟩).1
        = ⟨Summary.zero, 0⟩ ∧
    (tickStep (runsPerLog 60 1) ⟨Summary.zero, 59⟩ ⟨1, 1, 5, []⟩).2.1
        = true ∧
    ((tickStep (runsPerLog 60 1) ⟨Summary.zero, 59⟩ ⟨1, 1, 5, []⟩).2.2
        = true ↔
      0 < (accumulate Summary.zero ⟨1, 1, 5, []⟩).filesTransferred) :=
  ⟨by decide,
    (claim_C6_amended 60 1).2.2.1 ⟨Summary.zero, 59⟩ ⟨1, 1, 5, []⟩
      (by decide)⟩

/-! ## Helper lemmas about accumulation -/

theorem foldl_accumulate_ft (l : List Summary) :
    ∀ z : Summary, (l.foldl accumulate z).filesTransferred
      = z.filesTransferred + (l.map (fun s => s.filesTransferred)).sum := by
  induction l with
  | nil => intro z; simp
  | cons a t ih =>
    intro z
    rw [List.foldl_cons, ih (accumulate z a)]
    simp [accumulate]
    omega

theorem foldl_accumulate_fd (l : List Summary) :
    ∀ z : Summary, (l.foldl accumulate z).filesDeleted
      = z.filesDeleted + (l.map (fun s => s.filesDeleted)).sum := by
  induction l with
  | nil => intro z; simp
  | cons a t ih =>
    intro z
    rw [List.foldl_cons, ih (accumulate z a)]
    simp [accumulate]
    omega

theorem foldl_accumulate_tb (l : List Summary) :
    ∀ z : Summary, (l.foldl accumulate z).totalBytes
      = z.totalBytes + (l.map (fun s => s.totalBytes)).sum := by
  induction l with
  | nil => intro z; simp
  | cons a t ih =>
    intro z
    rw [List.foldl_cons, ih (accumulate z a)]
    simp [accumulate]
    ring

theorem foldl_accumulate_len (l : List Summary) :
    ∀ z : Summary, (l.foldl accumulate z).filesFailed.length
      = z.filesFailed.length + (l.map (fun s => s.filesFailed.length)).sum := by
  induction l with
  | nil => intro z; simp
  | cons a t ih =>
    intro z
    rw [List.foldl_cons, ih (accumulate z a)]
    simp [accumulate]
    omega

/-! ## Claim about accumulation algebra -/

/-- C8: the accumulate operation is associative, and folding summaries
into a zero accumulator in any order — any permutation of [A, B, C] —
yields identical totals (counters, bytes, and number of failed
deletions). -/
theorem claim_C8_accumulate_algebra :
    (∀ a b c : Summary,
      accumulate (accumulate a b) c = accumulate a (accumulate b c)) ∧
    (∀ (A B C : Summary) (l : List Summary), l.Perm [A, B, C] →
      totals (l.foldl accumulate Summary.zero)
        = totals ([A, B, C].foldl accumulate Summary.zero)) := by
  constructor
  · intro a b c
    simp [accumulate, Nat.add_assoc, Int.add_assoc, List.append_assoc]
  · intro A B C l h
    have h1 := (h.map (fun s => s.filesTransferred)).sum_eq
    have h2 := (h.map (fun s => s.filesDeleted)).sum_eq
    have h3 := (h.map (fun s => s.totalBytes)).sum_eq
    have h4 := (h.map (fun s => s.filesFailed.length)).sum_eq
    refine Prod.ext ?_ (Prod.ext ?_ (Prod.ext ?_ ?_)) <;>
      simp [totals, foldl_accumulate_ft, foldl_accumulate_fd,
        foldl_accumulate_tb, foldl_accumulate_len, h1, h2, h3, h4,
        accumulate, Summary.zero] <;>
      omega

/-- Witness for C8 on three concrete summaries and a concrete
permutation. -/
theorem claim_C8_accumulate_algebra_witness :
    (([⟨0, 0, 0, ["y", "z"]⟩, ⟨1, 0, 5, ["x"]⟩,
        ⟨2, 1, 7, []⟩] : List Summary).Perm
      [⟨1, 0, 5, ["x"]⟩, ⟨2, 1, 7, []⟩, ⟨0, 0, 0, ["y", "z"]⟩]) ∧
    totals (([⟨0, 0, 0, ["y", "z"]⟩, ⟨1, 0, 5, ["x"]⟩,
        ⟨2, 1, 7, []⟩] : List Summary).foldl accumulate Summary.zero)
      = totals (([⟨1, 0, 5, ["x"]⟩, ⟨2, 1, 7, []⟩,
        ⟨0, 0, 0, ["y", "z"]⟩] : List Summary).foldl accumulate
          Summary.zero) :=
  ⟨by decide,
    claim_C8_accumulate_algebra.2 ⟨1, 0, 5, ["x"]⟩ ⟨2, 1, 7, []⟩
      ⟨0, 0, 0, ["y", "z"]⟩
      [⟨0, 0, 0, ["y", "z"]⟩, ⟨1, 0, 5, ["x"]⟩, ⟨2, 1, 7, []⟩]
      (by decide)⟩


/-! ## Helper lemmas about the path model -/

theorem chainSep_of_not_mem (l : List Char) (h : '/' ∉ l) :
    List.Chain' (fun a b => ¬(a = '/' ∧ b = '/')) l := by
  induction l with
  | nil => exact List.chain'_nil
  | cons a t ih =>
    have ha : a ≠ '/' := fun hh => h (hh ▸ List.mem_cons_self a t)
    have ht : '/' ∉ t := fun hh => h (List.mem_cons_of_mem a hh)
    cases t with
    | nil => exact List.chain'_singleton a
    | cons b u =>
      rw [List.chain'_cons]
      exact ⟨fun hc => ha hc.1, ih ht⟩

theorem splitSepAux_no_sep (cs : List Char) :
    ∀ cur : List Char, '/' ∉ cur →
      ∀ l ∈ splitSepAux cur cs, '/' ∉ l := by
  induction cs with
  | nil =>
    intro cur hcur l hl
    rw [splitSepAux] at hl
    rcases List.mem_singleton.mp hl with h
    subst h
    simpa using hcur
  | cons c rest ih =>
    intro cur hcur l hl
    rw [splitSepAux] at hl
    by_cases hc : c = '/'
    · rw [if_pos hc] at hl
      rcases List.mem_cons.mp hl with h | h
      · subst h; simpa using hcur
      · exact ih [] (by simp) l h
    · rw [if_neg hc] at hl
      refine ih (c :: cur) ?_ l hl
      intro hm
      rcases List.mem_cons.mp hm with h | h
      · exact hc h.symm
      · exact hcur h

theorem cleanPush_inv (rooted : Bool) (stack : List (List Char))
    (comp : List Char)
    (hs : ∀ l ∈ stack, l ≠ [] ∧ '/' ∉ l) (hc : '/' ∉ comp) :
    ∀ l ∈ cleanPush rooted stack comp, l ≠ [] ∧ '/' ∉ l := by
  intro l hl
  unfold cleanPush at hl
  by_cases h1 : comp = [] ∨ comp = ['.']
  · rw [if_pos h1] at hl
    exact hs l hl
  · rw [if_neg h1] at hl
    have hne : comp ≠ [] := fun hh => h1 (Or.inl hh)
    by_cases h2 : comp = ['.', '.']
    · rw [if_pos h2] at hl
      cases stack with
      | nil =>
        rw [cleanPop] at hl
        cases rooted with
        | true => simp at hl
        | false =>
          simp at hl
          subst hl
          exact ⟨by simp, by simp⟩
      | cons top rest =>
        rw [cleanPop] at hl
        by_cases h3 : top = ['.', '.']
        · rw [if_pos h3] at hl
          rcases List.mem_cons.mp hl with h | h
          · subst h; exact ⟨by simp, by simp⟩
          · exact hs l h
        · rw [if_neg h3] at hl
          exact hs l (List.mem_cons_of_mem top hl)
    · rw [if_neg h2] at hl
      rcases List.mem_cons.mp hl with h | h
      · subst h; exact ⟨hne, hc⟩
      · exact hs l h

theorem cleanFold_inv (rooted : Bool) (comps : List (List Char)) :
    ∀ stack : List (List Char),
      (∀ l ∈ stack, l ≠ [] ∧ '/' ∉ l) →
      (∀ c ∈ comps, '/' ∉ c) →
      ∀ l ∈ comps.foldl (cleanPush rooted) stack, l ≠ [] ∧ '/' ∉ l := by
  induction comps with
  | nil => intro stack hs _ l hl; exact hs l hl
  | cons c t ih =>
    intro stack hs hc l hl
    rw [List.foldl_cons] at hl
    exact ih (cleanPush rooted stack c)
      (cleanPush_inv rooted stack c hs (hc c (List.mem_cons_self c t)))
      (fun d hd => hc d (List.mem_cons_of_mem c hd)) l hl

theorem joinSep_chain (ls : List (List Char))
    (h : ∀ l ∈ ls, l ≠ [] ∧ '/' ∉ l) :
    List.Chain' (fun a b => ¬(a = '/' ∧ b = '/')) (joinSep ls) ∧
    (∀ c, (joinSep ls).head? = some c → c ≠ '/') := by
  induction ls with
  | nil => exact ⟨List.chain'_nil, by intro c hc; simp [joinSep] at hc⟩
  | cons l t ih =>
    cases t with
    | nil =>
      obtain ⟨hne, hns⟩ := h l (List.mem_cons_self l [])
      refine ⟨?_, ?_⟩
      · simpa [joinSep] using chainSep_of_not_mem l hns
      · intro c hch
        have hc : c ∈ l := List.mem_of_mem_head? hch
        exact fun hceq => hns (hceq ▸ hc)
    | cons l2 t2 =>
      have hrest : ∀ d ∈ l2 :: t2, d ≠ [] ∧ '/' ∉ d :=
        fun d hd => h d (List.mem_cons_of_mem l hd)
      obtain ⟨ihc, ihh⟩ := ih hrest
      obtain ⟨hne, hns⟩ := h l (List.mem_cons_self _ _)
      have hjoin : joinSep (l :: l2 :: t2) = l ++ '/' :: joinSep (l2 :: t2) :=
        rfl
      have hchain2 : List.Chain' (fun a b => ¬(a = '/' ∧ b = '/'))
          ('/' :: joinSep (l2 :: t2)) := by
        cases hj : joinSep (l2 :: t2) with
        | nil => exact List.chain'_singleton _
        | cons d u =>
          rw [List.chain'_cons]
          have hd : d ≠ '/' := ihh d (by rw [hj]; rfl)
          refine ⟨fun hcc => hd hcc.2, ?_⟩
          rw [← hj]
          exact ihc
      refine ⟨?_, ?_⟩
      · rw [hjoin, List.chain'_append]
        refine ⟨chainSep_of_not_mem l hns, hchain2, ?_⟩
        intro x hx y hy
        have hx' : x ∈ l := List.mem_of_mem_getLast? hx
        exact fun hcc => hns (hcc.1 ▸ hx')
      · intro c hch
        rw [hjoin] at hch
        cases l with
        | nil => exact absurd rfl hne
        | cons a u =>
          have hac : a = c := by simpa using hch
          intro hceq
          exact hns (List.mem_cons.mpr (Or.inl (hac.trans hceq).symm))

theorem chainSep_rootJoin (ls : List (List Char))
    (h : ∀ l ∈ ls, l ≠ [] ∧ '/' ∉ l) :
    List.Chain' (fun a b => ¬(a = '/' ∧ b = '/')) ('/' :: joinSep ls) := by
  obtain ⟨hch, hhd⟩ := joinSep_chain ls h
  cases hj : joinSep ls with
  | nil => exact List.chain'_singleton _
  | cons d u =>
    rw [List.chain'_cons]
    have hd : d ≠ '/' := hhd d (by rw [hj]; rfl)
    rw [hj] at hch
    exact ⟨fun hcc => hd hcc.2, hch⟩

theorem goCleanList_chain (cs : List Char) :
    List.Chain' (fun a b => ¬(a = '/' ∧ b = '/')) (goCleanList cs) := by
  cases cs with
  | nil => exact List.chain'_singleton _
  | cons c t =>
    have hsplit : ∀ l ∈ splitSep (c :: t), '/' ∉ l :=
      splitSepAux_no_sep (c :: t) [] (by simp)
    have hrev : ∀ l ∈ ((splitSep (c :: t)).foldl
        (cleanPush (c == '/')) []).reverse, l ≠ [] ∧ '/' ∉ l :=
      fun l hl =>
        cleanFold_inv (c == '/') (splitSep (c :: t)) [] (by simp) hsplit l
          (List.mem_reverse.mp hl)
    have hdef : goCleanList (c :: t) =
        (if c == '/' then
          '/' :: joinSep (((splitSep (c :: t)).foldl
            (cleanPush (c == '/')) []).reverse)
        else
          match ((splitSep (c :: t)).foldl
              (cleanPush (c == '/')) []).reverse with
          | [] => ['.']
          | _ => joinSep (((splitSep (c :: t)).foldl
              (cleanPush (c == '/')) []).reverse)) := rfl
    rw [hdef]
    split
    · exact chainSep_rootJoin _ hrev
    · split
      · exact List.chain'_singleton _
      · exact (joinSep_chain _ hrev).1

theorem goJoin_noDoubleSep (a b : String) : noDoubleSep (goJoin a b) := by
  unfold noDoubleSep goJoin
  by_cases ha : a = ""
  · rw [if_pos ha]
    by_cases hb : b = ""
    · rw [if_pos hb]
      exact List.chain'_nil
    · rw [if_neg hb]
      exact goCleanList_chain _
  · rw [if_neg ha]
    exact goCleanList_chain _

/-! ## Claim about the source-path computation -/

/-- C7: the source path handed to the copy tool is exactly the glob
suffix with one leading separator stripped when present (a suffix
without a leading separator is unchanged) joined onto the source root
with the standard path-join semantics of the platform's join (single
separators between elements, Clean's collapsing of repeats — so no
double separators — and nothing beyond Clean's documented rules). -/
theorem claim_C7_src_path_normalization (root suffix : String) :
    srcPath root suffix = goJoin root (stripLeadingSep suffix) ∧
    (suffix.toList.head? ≠ some '/' → stripLeadingSep suffix = suffix) ∧
    (∀ rest : List Char, suffix.toList = '/' :: rest →
      (stripLeadingSep suffix).toList = rest) ∧
    noDoubleSep (srcPath root suffix) := by
  refine ⟨rfl, ?_, ?_, goJoin_noDoubleSep root (stripLeadingSep suffix)⟩
  · intro h
    unfold stripLeadingSep
    split
    · next rest heq => exact absurd (by rw [heq]; rfl) h
    · rfl
  · intro rest hrest
    unfold stripLeadingSep
    split
    · next r heq =>
      have h2 := heq.symm.trans hrest
      injection h2 with h4 h3
    · next hne => exact absurd hrest (hne rest)

/-- Witness for C7 on concrete suffixes with and without a leading
separator. -/
theorem claim_C7_src_path_normalization_witness :
    ("a.gz".toList.head? ≠ some '/') ∧
    stripLeadingSep "a.gz" = "a.gz" ∧
    ("/a.gz".toList = '/' :: "a.gz".toList) ∧
    (stripLeadingSep "/a.gz").toList = "a.gz".toList ∧
    noDoubleSep (srcPath "/tmp/" "/**/*.gz") :=
  ⟨by decide,
    (claim_C7_src_path_normalization "/tmp/" "a.gz").2.1 (by decide),
    by decide,
    (claim_C7_src_path_normalization "/tmp/" "/a.gz").2.2.1
      "a.gz".toList (by decide),
    (claim_C7_src_path_normalization "/tmp/" "/**/*.gz").2.2.2⟩
